import Mathlib

/-!
Verification model of the tk-meshroom toolkit engine.

This file gives a shallow embedding, in Lean, of the menu-composition and
context-resolution core of the repository:

* src/python/tk_meshroom/menu_generation.py - the Qt menu tree built by
  MenuGenerator.create_menu, the favourites pass, the per-app grouping of
  _add_app_menu, the recursive sub-menu search of
  AppCommand._find_sub_menu_item together with AppCommand.add_command_to_menu,
  and the deferred-dispatch Callback class;
* src/engine.py - update_engine_context, MeshroomEngine.create_shotgun_menu
  and MeshroomEngine.destroy_engine.

Qt menus and actions are modelled as a tree of nodes (a QMenu is a titled node
holding an ordered list of actions; a QAction is a leaf item or a separator).
Python strings are Lean strings; a Python dict is an insertion-ordered
association list; exceptions are modelled with Except where a claim is about
raising.  Callbacks are identified by the outcome of running them, since only
that outcome is observable at the dispatch boundary.
-/

/-! ## The menu tree

A QMenu is Node.sub (title plus ordered actions); QAction leaves are Node.item
(the action text) and Node.divider (a separator action).  The action list is a
mutually inductive list so that all functions on the tree can be defined by
structural recursion. -/

mutual

inductive Node where
  | divider : Node
  | item (label : String) : Node
  | sub (title : String) (actions : NodeList) : Node

inductive NodeList where
  | nil : NodeList
  | cons (hd : Node) (tl : NodeList) : NodeList

end

mutual

/-- Boolean equality on menu nodes. -/
def Node.beq : Node → Node → Bool
  | .divider, .divider => true
  | .item a, .item b => a == b
  | .sub t ns, .sub u ms => t == u && NodeList.beq ns ms
  | _, _ => false

/-- Boolean equality on action lists. -/
def NodeList.beq : NodeList → NodeList → Bool
  | .nil, .nil => true
  | .cons a as, .cons b bs => Node.beq a b && NodeList.beq as bs
  | _, _ => false

end

mutual

theorem nodeEqOfBeq : ∀ {a b : Node}, Node.beq a b = true → a = b
  | .divider, .divider, _ => rfl
  | .item a, .item b, h => by
      simp only [Node.beq, beq_iff_eq] at h; exact h ▸ rfl
  | .sub t ns, .sub u ms, h => by
      simp only [Node.beq, Bool.and_eq_true, beq_iff_eq] at h
      exact h.1 ▸ (nodeListEqOfBeq h.2) ▸ rfl

theorem nodeListEqOfBeq : ∀ {a b : NodeList}, NodeList.beq a b = true → a = b
  | .nil, .nil, _ => rfl
  | .cons a as, .cons b bs, h => by
      simp only [NodeList.beq, Bool.and_eq_true] at h
      exact (nodeEqOfBeq h.1) ▸ (nodeListEqOfBeq h.2) ▸ rfl

end

mutual

theorem nodeBeqRefl : ∀ a : Node, Node.beq a a = true
  | .divider => rfl
  | .item a => by simp [Node.beq]
  | .sub t ns => by simp [Node.beq, nodeListBeqRefl ns]

theorem nodeListBeqRefl : ∀ a : NodeList, NodeList.beq a a = true
  | .nil => rfl
  | .cons a as => by simp [NodeList.beq, nodeBeqRefl a, nodeListBeqRefl as]

end

instance : DecidableEq Node := fun a b =>
  decidable_of_iff (Node.beq a b = true)
    ⟨nodeEqOfBeq, fun h => h ▸ nodeBeqRefl a⟩

instance : DecidableEq NodeList := fun a b =>
  decidable_of_iff (NodeList.beq a b = true)
    ⟨nodeListEqOfBeq, fun h => h ▸ nodeListBeqRefl a⟩

/-- Conversion from an ordinary list of nodes, used to write trees concretely. -/
def NodeList.ofList : List Node → NodeList
  | [] => .nil
  | n :: rest => .cons n (NodeList.ofList rest)

/-- Concatenation of action lists (Qt appends new actions at the end). -/
def NodeList.append : NodeList → NodeList → NodeList
  | .nil, ys => ys
  | .cons x xs, ys => .cons x (NodeList.append xs ys)

/-- Number of actions in the list. -/
def NodeList.length : NodeList → Nat
  | .nil => 0
  | .cons _ tl => tl.length + 1

/-- Indexed access into an action list. -/
def NodeList.get? : NodeList → Nat → Option Node
  | .nil, _ => none
  | .cons x _, 0 => some x
  | .cons _ xs, i + 1 => xs.get? i

/-- Replace the action at an index by applying a function to it. -/
def NodeList.modifyIdx (f : Node → Node) : NodeList → Nat → NodeList
  | .nil, _ => .nil
  | .cons x xs, 0 => .cons (f x) xs
  | .cons x xs, i + 1 => .cons x (xs.modifyIdx f i)

/-- Title of a menu node (empty for plain actions). -/
def Node.titleD : Node → String
  | .sub t _ => t
  | _ => ""

/-- Actions of a menu node (empty for plain actions). -/
def Node.actionsD : Node → NodeList
  | .sub _ ns => ns
  | _ => .nil

/-- Number of direct actions of a menu node. -/
def Node.actionsLength (n : Node) : Nat := n.actionsD.length

/-- Append one action at the end of a menu (QMenu.addAction / addMenu). -/
def appendAction (a : Node) : Node → Node
  | .sub t ns => .sub t (ns.append (.cons a .nil))
  | n => n

theorem nodeListAppend_length : ∀ xs ys : NodeList,
    (xs.append ys).length = xs.length + ys.length
  | .nil, ys => by simp [NodeList.append, NodeList.length]
  | .cons x xs, ys => by
      simp [NodeList.append, NodeList.length, nodeListAppend_length xs ys]
      omega

theorem nodeListModifyIdx_length (f : Node → Node) :
    ∀ (xs : NodeList) (i : Nat), (xs.modifyIdx f i).length = xs.length
  | .nil, _ => by simp [NodeList.modifyIdx]
  | .cons x xs, 0 => by simp [NodeList.modifyIdx, NodeList.length]
  | .cons x xs, i + 1 => by
      simp [NodeList.modifyIdx, NodeList.length, nodeListModifyIdx_length f xs i]

/-! ## String utilities

Command names are slash-delimited paths.  Python str.split is modelled by a
structural split over the character list, and the lexicographic code-point
order Python uses to sort strings is modelled over character lists as well
(both are definitionally computable, unlike the iterator-based order of the
core library). -/

/-- The empty string. -/
def emptyString : String := ""

/-- Split a character list on the slash character; mirrors Python
str.split which always returns one more segment than there are separators. -/
def splitSlashAux : List Char → List Char → List String
  | [], cur => [String.mk cur.reverse]
  | c :: rest, cur =>
      if c = '/' then String.mk cur.reverse :: splitSlashAux rest []
      else splitSlashAux rest (c :: cur)

/-- Split a command name on the slash character, as name.split in
AppCommand.add_command_to_menu. -/
def splitSlash (s : String) : List String := splitSlashAux s.data []

/-- Lexicographic code-point order on character lists (the order Python uses
to compare strings). -/
def charLexLe : List Char → List Char → Bool
  | [], _ => true
  | _ :: _, [] => false
  | a :: as, b :: bs =>
      if a.toNat < b.toNat then true
      else if b.toNat < a.toNat then false
      else charLexLe as bs

/-- Lexicographic order on strings. -/
def strLe (a b : String) : Bool := charLexLe a.data b.data

theorem charLexLe_total (a b : List Char) :
    charLexLe a b = true ∨ charLexLe b a = true := by
  induction a generalizing b with
  | nil => left; simp [charLexLe]
  | cons x xs ih =>
      cases b with
      | nil => right; simp [charLexLe]
      | cons y ys =>
          by_cases hxy : x.toNat < y.toNat
          · left; simp [charLexLe, hxy]
          · by_cases hyx : y.toNat < x.toNat
            · right; simp [charLexLe, hyx]
            · rcases ih ys with h | h
              · left; simp [charLexLe, hxy, hyx, h]
              · right; simp [charLexLe, hxy, hyx, h]

theorem charLexLe_trans {a b c : List Char}
    (hab : charLexLe a b = true) (hbc : charLexLe b c = true) :
    charLexLe a c = true := by
  induction a generalizing b c with
  | nil => simp [charLexLe]
  | cons x xs ih =>
      cases b with
      | nil => simp [charLexLe] at hab
      | cons y ys =>
          cases c with
          | nil => simp [charLexLe] at hbc
          | cons z zs =>
              simp only [charLexLe] at hab hbc ⊢
              by_cases hxy : x.toNat < y.toNat
              · by_cases hyz : y.toNat < z.toNat
                · have : x.toNat < z.toNat := Nat.lt_trans hxy hyz
                  simp [this]
                · by_cases hzy : z.toNat < y.toNat
                  · simp [hxy, hyz, hzy] at hbc
                  · have hyz' : y.toNat = z.toNat := Nat.le_antisymm
                      (Nat.le_of_not_lt hzy) (Nat.le_of_not_lt hyz)
                    have : x.toNat < z.toNat := hyz' ▸ hxy
                    simp [this]
              · by_cases hyx : y.toNat < x.toNat
                · simp [hxy, hyx] at hab
                · have hxy' : x.toNat = y.toNat := Nat.le_antisymm
                    (Nat.le_of_not_lt hyx) (Nat.le_of_not_lt hxy)
                  by_cases hyz : y.toNat < z.toNat
                  · have : x.toNat < z.toNat := hxy' ▸ hyz
                    simp [this]
                  · by_cases hzy : z.toNat < y.toNat
                    · simp [hyz, hzy] at hbc
                    · have hxz : ¬ x.toNat < z.toNat := by omega
                      have hzx : ¬ z.toNat < x.toNat := by omega
                      simp only [hxy, hyx, if_false] at hab
                      simp only [hyz, hzy, if_false] at hbc
                      simp [hxz, hzx, ih hab hbc]

/-! ## Sub-menu search and leaf placement

AppCommand._find_sub_menu_item searches for a sub-menu with a given label: it
first checks the menu it was handed (by title), then walks the menu's actions
in order, checking each sub-menu's title before descending recursively into
it.  The result is modelled as the index path from the searched menu to the
found sub-menu (the empty path meaning the searched menu itself). -/

mutual

/-- Model of AppCommand._find_sub_menu_item: index path to the first sub-menu
(in the source's depth-first order) whose title is the label. -/
def Node.findSubMenuItem (label : String) : Node → Option (List Nat)
  | .sub t ns => if t = label then some [] else NodeList.findAct label ns 0
  | _ => none

/-- Search the actions of a menu, starting at index i, for a sub-menu with the
given label, descending depth-first exactly as the source loop does. -/
def NodeList.findAct (label : String) : NodeList → Nat → Option (List Nat)
  | .nil, _ => none
  | .cons (.sub t ms) rest, i =>
      if t = label then some [i]
      else
        match NodeList.findAct label ms 0 with
        | some p => some (i :: p)
        | none => NodeList.findAct label rest (i + 1)
  | .cons _ rest, i => NodeList.findAct label rest (i + 1)

end

/-- Follow an index path down the tree. -/
def getAt : List Nat → Node → Option Node
  | [], n => some n
  | i :: p, .sub _ ns => (ns.get? i).bind (fun m => getAt p m)
  | _ :: _, _ => none

/-- Apply a function to the node at an index path (identity when the path does
not exist, which never happens for paths produced by the search). -/
def modifyAt (f : Node → Node) : List Nat → Node → Node
  | [], n => f n
  | i :: p, .sub t ns => .sub t (ns.modifyIdx (fun m => modifyAt f p m) i)
  | _ :: _, n => n

/-- Model of the loop body of AppCommand.add_command_to_menu: place a leaf
action under the remaining path segments, reusing the sub-menu found by
Node.findSubMenuItem when there is one and otherwise appending a freshly
created sub-menu (as MenuGenerator.add_sub_menu does) and continuing inside
it. -/
def placeIn : List String → Node → Node → Node
  | [], leaf, menu => appendAction leaf menu
  | seg :: rest, leaf, menu =>
      match Node.findSubMenuItem seg menu with
      | some relPath => modifyAt (fun m => placeIn rest leaf m) relPath menu
      | none => appendAction (placeIn rest leaf (.sub seg .nil)) menu

/-- Model of AppCommand.add_command_to_menu: split the command name on
slashes, walk or create the group segments, and add the final segment as the
menu item. -/
def addCmdToMenu (menu : Node) (name : String) : Node :=
  let parts := splitSlash name
  placeIn parts.dropLast (.item (parts.getLastD emptyString)) menu

/-! ## Command descriptors

AppCommand wraps one entry of engine.commands: its name, its properties (the
owning app, if any, and the command type), and the favourite flag set by the
favourites pass.  The reverse lookup get_app_instance_name performs over
engine.apps is modelled by storing its result on the app handle. -/

/-- Fixed strings used by the builder. -/
def otherItemsLabel : String := "Other Items"

def contextMenuType : String := "context_menu"

def defaultTypeName : String := "default"

def sgtkDisabledLabel : String := "Sgtk is disabled."

def jumpToSgLabel : String := "Jump to Flow Production Tracking"

def jumpToFsLabel : String := "Jump to File System"

/-- An owning app as seen from a command's properties: its display name and
the instance name that the reverse search over engine.apps would produce. -/
structure AppHandle where
  displayName : String
  instanceName : Option String
deriving DecidableEq

/-- The recognised keys of a command's properties dict. -/
structure CmdProps where
  app : Option AppHandle
  cmdType : Option String
deriving DecidableEq

/-- Model of the AppCommand wrapper of menu_generation.py. -/
structure AppCommand where
  name : String
  props : CmdProps
  favourite : Bool
deriving DecidableEq

/-- Model of AppCommand.get_app_name. -/
def AppCommand.getTheAppName (c : AppCommand) : Option String :=
  c.props.app.map (fun a => a.displayName)

/-- Model of AppCommand.get_app_instance_name. -/
def AppCommand.getAppInstanceName (c : AppCommand) : Option String :=
  c.props.app.bind (fun a => a.instanceName)

/-- Model of AppCommand.get_type: the type property, defaulting to default. -/
def AppCommand.getType (c : AppCommand) : String :=
  c.props.cmdType.getD defaultTypeName

/-- One entry of the menu_favourites setting. -/
structure FavEntry where
  appInstance : String
  favName : String
deriving DecidableEq

/-- The match test of the favourites loop in create_menu. -/
def favMatches (f : FavEntry) (c : AppCommand) : Bool :=
  c.getAppInstanceName == some f.appInstance && c.name == f.favName

/-- Name order on commands, used by the sorts in create_menu and
_add_app_menu (Python sorts strings by code point). -/
def cmdNameLe (a b : AppCommand) : Prop := strLe a.name b.name = true

instance : DecidableRel cmdNameLe := fun a b =>
  inferInstanceAs (Decidable (strLe a.name b.name = true))

instance : IsTotal AppCommand cmdNameLe :=
  ⟨fun a b => charLexLe_total a.name.data b.name.data⟩

instance : IsTrans AppCommand cmdNameLe :=
  ⟨fun _ _ _ hab hbc => charLexLe_trans hab hbc⟩

/-- Code-point order on strings as a decidable relation. -/
def strLeP (a b : String) : Prop := strLe a b = true

instance : DecidableRel strLeP := fun a b =>
  inferInstanceAs (Decidable (strLe a b = true))

instance : IsTotal String strLeP := ⟨fun a b => charLexLe_total a.data b.data⟩

instance : IsTrans String strLeP := ⟨fun _ _ _ hab hbc => charLexLe_trans hab hbc⟩

/-! ## The menu build (MenuGenerator.create_menu) -/

/-- What create_menu reads from the engine context: its display string and
whether it has filesystem locations. -/
structure CtxInfo where
  displayName : String
  hasFsLocations : Bool
deriving DecidableEq

/-- Model of MenuGenerator._add_context_menu: a sub-menu titled with the
context, holding a divider, the jump-to-tracker item, the jump-to-filesystem
item when the context has filesystem locations, and a trailing divider. -/
def contextMenuNode (ctx : CtxInfo) : Node :=
  Node.sub ctx.displayName (NodeList.ofList
    ([Node.divider, Node.item jumpToSgLabel] ++
      (if ctx.hasFsLocations then [Node.item jumpToFsLabel] else []) ++
      [Node.divider]))

/-- Inner loop of the favourites pass: scan all commands in order and, for
each one matching the favourite entry, add it to the root menu and set its
favourite flag. -/
def favScan (f : FavEntry) : Node → List AppCommand → Node × List AppCommand
  | root, [] => (root, [])
  | root, c :: rest =>
      if favMatches f c then
        let res := favScan f (addCmdToMenu root c.name) rest
        (res.1, { c with favourite := true } :: res.2)
      else
        let res := favScan f root rest
        (res.1, c :: res.2)

/-- Outer loop of the favourites pass: process the menu_favourites setting in
configuration order. -/
def favPass : Node → List AppCommand → List FavEntry → Node × List AppCommand
  | root, items, [] => (root, items)
  | root, items, f :: fs =>
      let res := favScan f root items
      favPass res.1 res.2 fs

/-- Append a command to the list held for a key of the commands_by_app dict,
creating the key at the end when absent (Python dict insertion order). -/
def assocAppend (byApp : List (String × List AppCommand)) (key : String)
    (c : AppCommand) : List (String × List AppCommand) :=
  match byApp with
  | [] => [(key, [c])]
  | (k, cs) :: rest =>
      if k = key then (k, cs ++ [c]) :: rest
      else (k, cs) :: assocAppend rest key c

/-- Dict lookup in commands_by_app (empty when the key is absent, which the
source never hits). -/
def assocFind (byApp : List (String × List AppCommand)) (key : String) :
    List AppCommand :=
  match byApp with
  | [] => []
  | (k, cs) :: rest => if k = key then cs else assocFind rest key

/-- The routing loop of create_menu: commands of type context_menu are added
to the context sub-menu (action 0 of the root), all others are grouped by
owning app display name, defaulting to the Other Items bucket. -/
def routeCmds : Node → List (String × List AppCommand) → List AppCommand →
    Node × List (String × List AppCommand)
  | root, byApp, [] => (root, byApp)
  | root, byApp, c :: rest =>
      if c.getType = contextMenuType then
        routeCmds (modifyAt (fun m => addCmdToMenu m c.name) [0] root) byApp rest
      else
        routeCmds root (assocAppend byApp ((c.getTheAppName).getD otherItemsLabel) c) rest

/-- One app group of _add_app_menu: a group of more than one command becomes
a sub-menu holding all of its commands sorted by name; a single non-favourite
command is added to the root directly; a single favourite is skipped. -/
def emitApp (byApp : List (String × List AppCommand)) (root : Node)
    (key : String) : Node :=
  let cs := assocFind byApp key
  if 1 < cs.length then
    appendAction
      ((cs.insertionSort cmdNameLe).foldl
        (fun m c => addCmdToMenu m c.name) (Node.sub key NodeList.nil))
      root
  else
    match cs with
    | [c] => if c.favourite then root else addCmdToMenu root c.name
    | _ => root

/-- Model of MenuGenerator._add_app_menu: process the app groups in sorted
key order, then add the closing divider. -/
def addAppMenu (root : Node) (byApp : List (String × List AppCommand)) : Node :=
  appendAction Node.divider
    (((byApp.map Prod.fst).insertionSort strLeP).foldl (emitApp byApp) root)

/-- Model of QMenu.clear at the top of create_menu: the menu object survives
with its title, its actions are dropped. -/
def clearMenu (n : Node) : Node := Node.sub n.titleD NodeList.nil

/-- Model of MenuGenerator.create_menu.  Returns the rebuilt menu together
with the AppCommand list carrying the favourite flags the pass set.  The prev
argument is the state of the persistent menu widget before the rebuild; the
disabled flag renders the single explanatory entry instead of the tree. -/
def createMenu (prev : Node) (ctx : CtxInfo) (cmds : List (String × CmdProps))
    (favs : List FavEntry) (disabled : Bool) : Node × List AppCommand :=
  let root0 := clearMenu prev
  if disabled then
    (appendAction (Node.sub sgtkDisabledLabel NodeList.nil) root0, [])
  else
    let root1 := appendAction Node.divider (appendAction (contextMenuNode ctx) root0)
    let items := (cmds.map (fun p => AppCommand.mk p.1 p.2 false)).insertionSort cmdNameLe
    let fp := favPass root1 items favs
    let root2 := appendAction Node.divider fp.1
    let rc := routeCmds root2 [] fp.2
    (addAppMenu rc.1 rc.2, fp.2)

/-! ## Deferred dispatch (the Callback class)

Callback.__call__ only schedules _execute_within_exception_trap on a
zero-delay single-shot timer; the trap runs the wrapped python callback and
logs any exception it raises.  A wrapped callback is modelled by the outcome
of running it, since only that outcome is observable at the boundary; the
timer queue is the FIFO list of scheduled outcomes.  Functions that the
source allows to raise are given Except types so that raising is visible. -/

/-- Outcome of running the wrapped python callback. -/
inductive CbOutcome where
  | ok : CbOutcome
  | raised (msg : String) : CbOutcome
deriving DecidableEq

/-- The message Callback._execute_within_exception_trap logs for a raised
exception. -/
def toolkitExceptionLog : String := "An exception was raised from Toolkit"

/-- State of the host event loop seen by the dispatcher: the scheduled
single-shot tasks in FIFO order and the log. -/
structure DispatchState where
  pending : List CbOutcome
  logs : List String
deriving DecidableEq

/-- Model of Callback.__call__ with the actual callback cb: whatever
arguments the UI passes are accepted and dropped, the trapped execution is
scheduled, and nothing is raised (the Except layer records that the body
cannot throw). -/
def callbackCall (cb : CbOutcome) (_args : List String) (s : DispatchState) :
    Except String DispatchState :=
  Except.ok { s with pending := s.pending ++ [cb] }

/-- Model of Callback._execute_within_exception_trap: run the callback; a
raised exception is caught and logged, never rethrown. -/
def executeWithinExceptionTrap (cb : CbOutcome) (logs : List String) :
    List String :=
  match cb with
  | .ok => logs
  | .raised _ => logs ++ [toolkitExceptionLog]

/-- Drain the single-shot timer queue in FIFO order on the next ticks of the
event loop.  Total: no scheduled task can take the loop down. -/
def drainQueue (s : DispatchState) : DispatchState :=
  { pending := [],
    logs := s.pending.foldl (fun lg cb => executeWithinExceptionTrap cb lg) s.logs }

/-! ## The engine (engine.py)

update_engine_context, create_shotgun_menu and destroy_engine, over an
abstract context type compared by value equality.  The toolkit calls the
routine performs are collected in an environment: sgtk_from_path succeeding
or raising TankError, tk.context_from_path returning a context or nothing,
and engine.change_context being accepted or rejected (TankError) by the
toolkit.  os.path.abspath is absorbed into those functions since the routine
only ever passes the normalised path to them. -/

/-- Log levels used by update_engine_context. -/
inductive LogLevel where
  | debug : LogLevel
  | info : LogLevel
  | warning : LogLevel
  | error : LogLevel
deriving DecidableEq

/-- The distinct messages update_engine_context can log. -/
inductive LogMsg where
  | updatingContext : LogMsg
  | noScenePath : LogMsg
  | couldNotDetectContext : LogMsg
  | couldNotExtractContext : LogMsg
  | contextChanged : LogMsg
  | couldNotChangeContext : LogMsg
deriving DecidableEq

/-- Outcome of one run of update_engine_context (the spec's
ResolutionOutcome, plus the early return when there is no engine or UI). -/
inductive ResolutionOutcome where
  | noEngineUi : ResolutionOutcome
  | noChange : ResolutionOutcome
  | failed : ResolutionOutcome
  | ambiguous : ResolutionOutcome
  | resolved : ResolutionOutcome
deriving DecidableEq

/-- External collaborators and configuration of the engine. -/
structure EngineEnv (Ctx : Type) where
  sgtkFromPath : String → Bool
  contextFromPath : String → Ctx → Option Ctx
  changeContextOk : Ctx → Bool
  ctxInfo : Ctx → CtxInfo
  commands : List (String × CmdProps)
  favourites : List FavEntry
  automaticContextSwitch : Bool

/-- Mutable state of the engine: current context, UI presence, the menu
generator (absent until post_app_init creates it, and only with a UI) holding
the persistent menu, and the graphChanged subscription. -/
structure EngineState (Ctx : Type) where
  context : Ctx
  hasUi : Bool
  menuGenerator : Option Node
  graphConnected : Bool
deriving DecidableEq

/-- Model of MeshroomEngine.create_shotgun_menu: rebuild through the menu
generator and report True exactly when there is a UI and a generator;
otherwise do nothing and report False. -/
def createShotgunMenu {Ctx : Type} (env : EngineEnv Ctx) (s : EngineState Ctx)
    (disabled : Bool) : EngineState Ctx × Bool :=
  match s.menuGenerator with
  | some m =>
      if s.hasUi then
        let rebuilt := (createMenu m (env.ctxInfo s.context) env.commands
          env.favourites disabled).1
        ({ s with menuGenerator := some rebuilt }, true)
      else (s, false)
  | none => (s, false)

/-- Model of MeshroomEngine.post_context_change, run by the toolkit after a
successful engine.change_context: with automatic context switching on and a
context that actually changed, the menu is rebuilt for the new context. -/
def postContextChange {Ctx : Type} [DecidableEq Ctx] (env : EngineEnv Ctx)
    (oldCtx : Ctx) (s : EngineState Ctx) : EngineState Ctx :=
  if env.automaticContextSwitch then
    if oldCtx = s.context then s else (createShotgunMenu env s false).1
  else s

/-- Model of update_engine_context in engine.py.  Returns the new engine
state, the resolution outcome, and the log entries of this run.  The function
is total: every toolkit failure the source meets (TankError from
sgtk_from_path or change_context, no context from context_from_path) is
handled inside it. -/
def updateEngineContext {Ctx : Type} [DecidableEq Ctx] (env : EngineEnv Ctx)
    (path : Option String) (s : EngineState Ctx) :
    EngineState Ctx × ResolutionOutcome × List (LogLevel × LogMsg) :=
  if s.hasUi then
    let base := [(LogLevel.debug, LogMsg.updatingContext)]
    let p := path.getD emptyString
    if p = emptyString then
      (s, .noChange, base ++ [(LogLevel.info, LogMsg.noScenePath)])
    else if env.sgtkFromPath p then
      match env.contextFromPath p s.context with
      | none =>
          (s, .ambiguous, base ++ [(LogLevel.warning, LogMsg.couldNotExtractContext)])
      | some newCtx =>
          if newCtx = s.context then (s, .noChange, base)
          else if env.changeContextOk newCtx then
            (postContextChange env s.context { s with context := newCtx },
             .resolved, base ++ [(LogLevel.info, LogMsg.contextChanged)])
          else
            ((createShotgunMenu env s true).1,
             .resolved, base ++ [(LogLevel.error, LogMsg.couldNotChangeContext)])
    else
      (s, .failed, base ++ [(LogLevel.error, LogMsg.couldNotDetectContext)])
  else (s, .noEngineUi, [])

/-- The AttributeError raised by evaluating None.destroy(). -/
def noneDestroyError : String := "AttributeError: NoneType has no attribute destroy"

/-- Model of MeshroomEngine.destroy_engine: disconnect the graphChanged
subscription when there is a UI, then call self._menu_generator.destroy()
unconditionally - which raises AttributeError when the generator was never
created (no UI / batch mode).  The generator attribute itself survives a
successful destroy (only the Qt widget is released). -/
def destroyEngine {Ctx : Type} (s : EngineState Ctx) :
    Except String (EngineState Ctx) :=
  let s1 := if s.hasUi then { s with graphConnected := false } else s
  match s1.menuGenerator with
  | none => Except.error noneDestroyError
  | some _ => Except.ok s1

/-- Whether a menu is the disabled menu create_menu renders: a single
sub-menu entry carrying the explanatory label. -/
def isDisabledMenu (n : Node) : Bool :=
  match n with
  | .sub _ (.cons (.sub t .nil) .nil) => t == sgtkDisabledLabel
  | _ => false

/-! ## Basic lemmas about the tree operations -/

theorem nodeListAppend_nil : ∀ xs : NodeList, xs.append .nil = xs
  | .nil => rfl
  | .cons x xs => by simp [NodeList.append, nodeListAppend_nil xs]

theorem nodeListAppend_assoc : ∀ xs ys zs : NodeList,
    (xs.append ys).append zs = xs.append (ys.append zs)
  | .nil, _, _ => rfl
  | .cons x xs, ys, zs => by
      simp [NodeList.append, nodeListAppend_assoc xs ys zs]

theorem nodeListOfList_append (xs ys : List Node) :
    NodeList.ofList (xs ++ ys) = (NodeList.ofList xs).append (NodeList.ofList ys) := by
  induction xs with
  | nil => simp [NodeList.ofList, NodeList.append]
  | cons x xs ih => simp [NodeList.ofList, NodeList.append, ih]

mutual

/-- Whether the node, or any sub-menu nested anywhere below it, is a sub-menu
carrying the given title (the search space of Node.findSubMenuItem). -/
def Node.hasTitled (label : String) : Node → Bool
  | .sub t ns => t == label || NodeList.hasTitled label ns
  | _ => false

/-- Whether any sub-menu in the action list (at any depth) carries the title. -/
def NodeList.hasTitled (label : String) : NodeList → Bool
  | .nil => false
  | .cons n rest => Node.hasTitled label n || NodeList.hasTitled label rest

end

theorem findAct_eq_none (label : String) : ∀ (ns : NodeList) (i : Nat),
    NodeList.findAct label ns i = none ↔ NodeList.hasTitled label ns = false
  | .nil, _ => by simp [NodeList.findAct, NodeList.hasTitled]
  | .cons (.sub t ms) rest, i => by
      by_cases h : t = label
      · simp [NodeList.findAct, NodeList.hasTitled, Node.hasTitled, h]
      · rw [NodeList.findAct]
        simp only [h, if_false]
        cases hms : NodeList.findAct label ms 0 with
        | some p =>
            have := (findAct_eq_none label ms 0)
            simp only [NodeList.hasTitled, Node.hasTitled]
            constructor
            · intro hcon; simp [hms] at hcon
            · intro hfalse
              simp only [Bool.or_eq_false_iff] at hfalse
              have hnone : NodeList.findAct label ms 0 = none :=
                (findAct_eq_none label ms 0).mpr hfalse.1.2
              rw [hnone] at hms; cases hms
        | none =>
            have h1 := findAct_eq_none label ms 0
            have h2 := findAct_eq_none label rest (i + 1)
            simp only [NodeList.hasTitled, Node.hasTitled, Bool.or_eq_false_iff]
            rw [h2]
            constructor
            · intro hr
              exact ⟨⟨by simp [h], h1.mp hms⟩, hr⟩
            · intro hr; exact hr.2
  | .cons .divider rest, i => by
      simp [NodeList.findAct, NodeList.hasTitled, Node.hasTitled,
        findAct_eq_none label rest (i + 1)]
  | .cons (.item l) rest, i => by
      simp [NodeList.findAct, NodeList.hasTitled, Node.hasTitled,
        findAct_eq_none label rest (i + 1)]

theorem findAct_append_last (label : String) (ms : NodeList) :
    ∀ (ns : NodeList) (i : Nat), NodeList.hasTitled label ns = false →
    NodeList.findAct label (ns.append (.cons (.sub label ms) .nil)) i =
      some [i + ns.length]
  | .nil, i, _ => by simp [NodeList.append, NodeList.findAct, NodeList.length]
  | .cons (.sub t ks) rest, i, h => by
      simp only [NodeList.hasTitled, Node.hasTitled, Bool.or_eq_false_iff,
        beq_eq_false_iff_ne, ne_eq] at h
      have hks : NodeList.findAct label ks 0 = none :=
        (findAct_eq_none label ks 0).mpr h.1.2
      rw [NodeList.append, NodeList.findAct]
      simp only [h.1.1, if_false, hks]
      rw [findAct_append_last label ms rest (i + 1) h.2]
      simp [NodeList.length]; omega
  | .cons .divider rest, i, h => by
      simp only [NodeList.hasTitled, Node.hasTitled, Bool.false_or] at h
      have hstep : NodeList.findAct label
          ((NodeList.cons Node.divider rest).append (.cons (.sub label ms) .nil)) i =
          NodeList.findAct label (rest.append (.cons (.sub label ms) .nil)) (i + 1) := rfl
      rw [hstep, findAct_append_last label ms rest (i + 1) h]
      simp [NodeList.length]; omega
  | .cons (.item l) rest, i, h => by
      simp only [NodeList.hasTitled, Node.hasTitled, Bool.false_or] at h
      have hstep : NodeList.findAct label
          ((NodeList.cons (Node.item l) rest).append (.cons (.sub label ms) .nil)) i =
          NodeList.findAct label (rest.append (.cons (.sub label ms) .nil)) (i + 1) := rfl
      rw [hstep, findAct_append_last label ms rest (i + 1) h]
      simp [NodeList.length]; omega

theorem modifyIdx_append_length (f : Node → Node) (x : Node) :
    ∀ ns : NodeList,
    (ns.append (.cons x .nil)).modifyIdx f ns.length = ns.append (.cons (f x) .nil)
  | .nil => rfl
  | .cons y ys => by
      simp [NodeList.append, NodeList.length, NodeList.modifyIdx,
        modifyIdx_append_length f x ys]

/-! ## Shape preservation

Every operation of the builder maps a menu to a menu with the same title and
at least as many direct actions.  These facts drive the determinism claim
(the rebuilt root is again a menu with the fixed title) and the disabled-menu
reasoning (an enabled rebuild always has at least two root actions and can
never be mistaken for the disabled menu). -/

theorem placeIn_shape : ∀ (parts : List String) (leaf : Node) (t : String) (ns : NodeList),
    ∃ ms, placeIn parts leaf (Node.sub t ns) = Node.sub t ms ∧ ns.length ≤ ms.length
  | [], leaf, t, ns =>
      ⟨ns.append (.cons leaf .nil), rfl, by rw [nodeListAppend_length]; omega⟩
  | seg :: rest, leaf, t, ns => by
      rw [placeIn]
      cases hf : Node.findSubMenuItem seg (Node.sub t ns) with
      | none =>
          exact ⟨ns.append (.cons (placeIn rest leaf (Node.sub seg .nil)) .nil),
            rfl, by rw [nodeListAppend_length]; omega⟩
      | some relPath =>
          cases relPath with
          | nil => simpa [modifyAt] using placeIn_shape rest leaf t ns
          | cons i p =>
              exact ⟨ns.modifyIdx (fun m => modifyAt (fun m2 => placeIn rest leaf m2) p m) i,
                rfl, by rw [nodeListModifyIdx_length]⟩

theorem addCmdToMenu_shape (name : String) (t : String) (ns : NodeList) :
    ∃ ms, addCmdToMenu (Node.sub t ns) name = Node.sub t ms ∧ ns.length ≤ ms.length := by
  unfold addCmdToMenu
  exact placeIn_shape _ _ t ns

theorem foldl_shape {α : Type} (g : Node → α → Node)
    (hg : ∀ (a : α) (t : String) (ns : NodeList),
      ∃ ms, g (Node.sub t ns) a = Node.sub t ms ∧ ns.length ≤ ms.length) :
    ∀ (l : List α) (t : String) (ns : NodeList),
    ∃ ms, l.foldl g (Node.sub t ns) = Node.sub t ms ∧ ns.length ≤ ms.length := by
  intro l
  induction l with
  | nil => exact fun t ns => ⟨ns, rfl, Nat.le_refl _⟩
  | cons a l ih =>
      intro t ns
      obtain ⟨ms1, h1, hl1⟩ := hg a t ns
      obtain ⟨ms2, h2, hl2⟩ := ih t ms1
      exact ⟨ms2, by simp only [List.foldl, h1, h2], Nat.le_trans hl1 hl2⟩

theorem favScan_shape (f : FavEntry) : ∀ (items : List AppCommand) (t : String) (ns : NodeList),
    ∃ ms, (favScan f (Node.sub t ns) items).1 = Node.sub t ms ∧ ns.length ≤ ms.length
  | [], t, ns => ⟨ns, rfl, Nat.le_refl _⟩
  | c :: rest, t, ns => by
      rw [favScan]
      cases h : favMatches f c with
      | true =>
          simp only [if_true]
          obtain ⟨ms1, h1, hl1⟩ := addCmdToMenu_shape c.name t ns
          rw [h1]
          obtain ⟨ms2, h2, hl2⟩ := favScan_shape f rest t ms1
          exact ⟨ms2, h2, Nat.le_trans hl1 hl2⟩
      | false =>
          simp only [Bool.false_eq_true, if_false]
          exact favScan_shape f rest t ns

theorem favPass_shape : ∀ (favs : List FavEntry) (items : List AppCommand)
    (t : String) (ns : NodeList),
    ∃ ms, (favPass (Node.sub t ns) items favs).1 = Node.sub t ms ∧ ns.length ≤ ms.length
  | [], items, t, ns => ⟨ns, rfl, Nat.le_refl _⟩
  | f :: fs, items, t, ns => by
      rw [favPass]
      obtain ⟨ms1, h1, hl1⟩ := favScan_shape f items t ns
      have hpair : favScan f (Node.sub t ns) items =
          (Node.sub t ms1, (favScan f (Node.sub t ns) items).2) := by
        rw [← h1]
      rw [hpair]
      obtain ⟨ms2, h2, hl2⟩ := favPass_shape fs (favScan f (Node.sub t ns) items).2 t ms1
      exact ⟨ms2, h2, Nat.le_trans hl1 hl2⟩

theorem routeCmds_shape : ∀ (cmds : List AppCommand)
    (byApp : List (String × List AppCommand)) (t : String) (ns : NodeList),
    ∃ ms, (routeCmds (Node.sub t ns) byApp cmds).1 = Node.sub t ms ∧ ns.length ≤ ms.length
  | [], byApp, t, ns => ⟨ns, rfl, Nat.le_refl _⟩
  | c :: rest, byApp, t, ns => by
      rw [routeCmds]
      by_cases h : c.getType = contextMenuType
      · simp only [h, if_true]
        have : modifyAt (fun m => addCmdToMenu m c.name) [0] (Node.sub t ns) =
            Node.sub t (ns.modifyIdx (fun m => modifyAt (fun m2 => addCmdToMenu m2 c.name) [] m) 0) := rfl
        rw [this]
        obtain ⟨ms2, h2, hl2⟩ := routeCmds_shape rest byApp t
          (ns.modifyIdx (fun m => modifyAt (fun m2 => addCmdToMenu m2 c.name) [] m) 0)
        refine ⟨ms2, h2, ?_⟩
        rw [nodeListModifyIdx_length] at hl2
        exact hl2
      · simp only [h, if_false]
        exact routeCmds_shape rest _ t ns

theorem emitApp_shape (byApp : List (String × List AppCommand)) (key t : String)
    (ns : NodeList) :
    ∃ ms, emitApp byApp (Node.sub t ns) key = Node.sub t ms ∧ ns.length ≤ ms.length := by
  rw [emitApp]
  by_cases h : 1 < (assocFind byApp key).length
  · simp only [h, if_true]
    exact ⟨ns.append (.cons _ .nil), rfl, by rw [nodeListAppend_length]; omega⟩
  · simp only [h, if_false]
    cases hcs : assocFind byApp key with
    | nil => exact ⟨ns, rfl, Nat.le_refl _⟩
    | cons c rest =>
        cases rest with
        | nil =>
            cases hfav : c.favourite with
            | true => simp only [hfav, if_true]; exact ⟨ns, rfl, Nat.le_refl _⟩
            | false =>
                simp only [hfav, Bool.false_eq_true, if_false]
                exact addCmdToMenu_shape c.name t ns
        | cons d more => exact ⟨ns, rfl, Nat.le_refl _⟩

theorem addAppMenu_shape (byApp : List (String × List AppCommand)) (t : String)
    (ns : NodeList) :
    ∃ ms, addAppMenu (Node.sub t ns) byApp = Node.sub t ms ∧ ns.length + 1 ≤ ms.length := by
  rw [addAppMenu]
  obtain ⟨ms1, h1, hl1⟩ := foldl_shape (emitApp byApp)
    (fun a t2 ns2 => emitApp_shape byApp a t2 ns2)
    ((byApp.map Prod.fst).insertionSort strLeP) t ns
  rw [h1]
  exact ⟨ms1.append (.cons Node.divider .nil), rfl, by
    rw [nodeListAppend_length]; simp [NodeList.length]; omega⟩

theorem createMenu_shape (prev : Node) (ctx : CtxInfo)
    (cmds : List (String × CmdProps)) (favs : List FavEntry) (d : Bool) :
    ∃ ms, (createMenu prev ctx cmds favs d).1 = Node.sub prev.titleD ms ∧
      (d = false → 2 ≤ ms.length) := by
  cases d with
  | true =>
      exact ⟨.cons (Node.sub sgtkDisabledLabel .nil) .nil, rfl, by intro h; cases h⟩
  | false =>
      rw [createMenu]
      simp only [Bool.false_eq_true, if_false]
      have hroot1 : appendAction Node.divider
          (appendAction (contextMenuNode ctx) (clearMenu prev)) =
          Node.sub prev.titleD
            (.cons (contextMenuNode ctx) (.cons Node.divider .nil)) := by
        rw [clearMenu]; rfl
      rw [hroot1]
      obtain ⟨ms1, h1, hl1⟩ := favPass_shape favs
        ((cmds.map (fun p => AppCommand.mk p.1 p.2 false)).insertionSort cmdNameLe)
        prev.titleD (.cons (contextMenuNode ctx) (.cons Node.divider .nil))
      have hpair1 : favPass (Node.sub prev.titleD
            (.cons (contextMenuNode ctx) (.cons Node.divider .nil)))
          ((cmds.map (fun p => AppCommand.mk p.1 p.2 false)).insertionSort cmdNameLe) favs =
          (Node.sub prev.titleD ms1,
            (favPass (Node.sub prev.titleD
              (.cons (contextMenuNode ctx) (.cons Node.divider .nil)))
            ((cmds.map (fun p => AppCommand.mk p.1 p.2 false)).insertionSort cmdNameLe) favs).2) := by
        rw [← h1]
      rw [hpair1]
      simp only [NodeList.length] at hl1
      have happ : appendAction Node.divider (Node.sub prev.titleD ms1) =
          Node.sub prev.titleD (ms1.append (.cons Node.divider .nil)) := rfl
      rw [happ]
      obtain ⟨ms2, h2, hl2⟩ := routeCmds_shape
        ((favPass (Node.sub prev.titleD
            (.cons (contextMenuNode ctx) (.cons Node.divider .nil)))
          ((cmds.map (fun p => AppCommand.mk p.1 p.2 false)).insertionSort cmdNameLe) favs).2)
        [] prev.titleD (ms1.append (.cons Node.divider .nil))
      have hpair2 : routeCmds (Node.sub prev.titleD (ms1.append (.cons Node.divider .nil))) []
          ((favPass (Node.sub prev.titleD
              (.cons (contextMenuNode ctx) (.cons Node.divider .nil)))
            ((cmds.map (fun p => AppCommand.mk p.1 p.2 false)).insertionSort cmdNameLe) favs).2) =
          (Node.sub prev.titleD ms2,
            (routeCmds (Node.sub prev.titleD (ms1.append (.cons Node.divider .nil))) []
              ((favPass (Node.sub prev.titleD
                  (.cons (contextMenuNode ctx) (.cons Node.divider .nil)))
                ((cmds.map (fun p => AppCommand.mk p.1 p.2 false)).insertionSort cmdNameLe) favs).2)).2) := by
        rw [← h2]
      rw [hpair2]
      obtain ⟨ms3, h3, hl3⟩ := addAppMenu_shape _ prev.titleD ms2
      rw [h3]
      refine ⟨ms3, rfl, fun _ => ?_⟩
      rw [nodeListAppend_length] at hl2
      simp [NodeList.length] at hl2
      omega

theorem isDisabledMenu_false_of_two_le {n : Node} (h : 2 ≤ n.actionsLength) :
    isDisabledMenu n = false := by
  cases n with
  | divider => rfl
  | item l => rfl
  | sub t ns =>
      cases ns with
      | nil => simp [Node.actionsLength, Node.actionsD, NodeList.length] at h
      | cons x xs =>
          cases xs with
          | nil => simp [Node.actionsLength, Node.actionsD, NodeList.length] at h
          | cons y ys =>
              cases x with
              | divider => rfl
              | item l => rfl
              | sub u ks => cases ks <;> rfl

/-! ## Slash-free names

A name without slashes splits into a single segment, so
add_command_to_menu adds a single leaf action directly to the menu it was
handed; all sub-menu search and creation is skipped. -/

/-- Whether a character list contains no slash. -/
def noSlash : List Char → Bool
  | [] => true
  | c :: rest => if c = '/' then false else noSlash rest

/-- Whether a command name contains no slash. -/
def slashFree (s : String) : Bool := noSlash s.data

theorem splitSlashAux_noSlash : ∀ (cs cur : List Char), noSlash cs = true →
    splitSlashAux cs cur = [String.mk (cur.reverse ++ cs)]
  | [], cur, _ => by simp [splitSlashAux]
  | c :: rest, cur, h => by
      rw [noSlash] at h
      by_cases hc : c = '/'
      · simp [hc] at h
      · rw [splitSlashAux]
        simp only [hc, if_false]
        rw [splitSlashAux_noSlash rest (c :: cur) (by simpa [hc] using h)]
        simp

theorem splitSlash_eq_single {s : String} (h : slashFree s = true) :
    splitSlash s = [s] := by
  unfold splitSlash
  rw [splitSlashAux_noSlash s.data [] h]
  cases s
  simp

theorem addCmdToMenu_slashFree {name : String} (h : slashFree name = true)
    (m : Node) : addCmdToMenu m name = appendAction (Node.item name) m := by
  unfold addCmdToMenu
  rw [splitSlash_eq_single h]
  simp [placeIn]

/-! ## Spec-side description of the app section

The following two definitions transcribe, for comparison against the code,
the wording of the spec (section 4.1, step 5, and the favourites suppression
rule): groups in alphabetical order of app name; a group of more than one
command becomes a sub-menu of all its commands sorted by name; a single
command sits inline at the root unless promoted as a favourite, in which
case it is suppressed. -/

/-- Spec wording for one app group: the root-level nodes it contributes. -/
def specAppGroup (byApp : List (String × List AppCommand)) (k : String) :
    List Node :=
  let cs := assocFind byApp k
  if 1 < cs.length then
    [Node.sub k (NodeList.ofList
      ((cs.insertionSort cmdNameLe).map (fun c => Node.item c.name)))]
  else
    match cs with
    | [c] => if c.favourite then [] else [Node.item c.name]
    | _ => []

/-- Spec wording for the whole app section: groups in alphabetical key
order, concatenated. -/
def specAppMenuItems (byApp : List (String × List AppCommand)) : List Node :=
  ((byApp.map Prod.fst).insertionSort strLeP).flatMap (specAppGroup byApp)

theorem foldl_addCmd_slashFree : ∀ (cs : List AppCommand) (k : String) (acc : NodeList),
    (∀ c ∈ cs, slashFree c.name = true) →
    cs.foldl (fun m c => addCmdToMenu m c.name) (Node.sub k acc) =
      Node.sub k (acc.append (NodeList.ofList (cs.map (fun c => Node.item c.name))))
  | [], k, acc, _ => by simp [NodeList.ofList, nodeListAppend_nil]
  | c :: rest, k, acc, h => by
      simp only [List.foldl_cons]
      rw [addCmdToMenu_slashFree (h c (by simp))]
      show rest.foldl _ (Node.sub k (acc.append (.cons (Node.item c.name) .nil))) = _
      rw [foldl_addCmd_slashFree rest k _ (fun d hd => h d (by simp [hd]))]
      rw [nodeListAppend_assoc]
      simp [NodeList.ofList, NodeList.append, List.map_cons]

theorem emitApp_eq_spec (byApp : List (String × List AppCommand)) (k t : String)
    (ns : NodeList) (h : ∀ c ∈ assocFind byApp k, slashFree c.name = true) :
    emitApp byApp (Node.sub t ns) k =
      Node.sub t (ns.append (NodeList.ofList (specAppGroup byApp k))) := by
  rw [emitApp, specAppGroup]
  by_cases hl : 1 < (assocFind byApp k).length
  · simp only [hl, if_true]
    rw [foldl_addCmd_slashFree _ k .nil
      (fun c hc => h c ((List.mem_insertionSort cmdNameLe).mp hc))]
    show Node.sub t (ns.append (.cons _ .nil)) = _
    simp [NodeList.append, NodeList.ofList]
  · simp only [hl, if_false]
    cases hcs : assocFind byApp k with
    | nil => simp [NodeList.ofList, nodeListAppend_nil]
    | cons c rest =>
        cases rest with
        | nil =>
            cases hfav : c.favourite with
            | true =>
                simp only [hfav, if_true]
                simp [NodeList.ofList, nodeListAppend_nil]
            | false =>
                simp only [hfav, Bool.false_eq_true, if_false]
                rw [addCmdToMenu_slashFree (h c (by simp [hcs]))]
                show Node.sub t (ns.append (.cons (Node.item c.name) .nil)) = _
                simp [NodeList.ofList]
        | cons d more =>
            exact absurd (by simp [hcs]) hl

theorem foldl_emitApp_spec (byApp : List (String × List AppCommand)) :
    ∀ (keys : List String) (t : String) (ns : NodeList),
    (∀ k ∈ keys, ∀ c ∈ assocFind byApp k, slashFree c.name = true) →
    keys.foldl (emitApp byApp) (Node.sub t ns) =
      Node.sub t (ns.append (NodeList.ofList (keys.flatMap (specAppGroup byApp))))
  | [], t, ns, _ => by simp [NodeList.ofList, nodeListAppend_nil]
  | k :: rest, t, ns, h => by
      simp only [List.foldl_cons]
      rw [emitApp_eq_spec byApp k t ns (h k (by simp))]
      rw [foldl_emitApp_spec byApp rest t _ (fun k2 hk2 => h k2 (by simp [hk2]))]
      rw [nodeListAppend_assoc, ← nodeListOfList_append]
      simp

theorem assocFind_cases : ∀ (byApp : List (String × List AppCommand)) (k : String),
    assocFind byApp k = [] ∨ ∃ p ∈ byApp, assocFind byApp k = p.2
  | [], _ => Or.inl rfl
  | (k2, cs) :: rest, k => by
      rw [assocFind]
      by_cases h : k2 = k
      · simp only [h, if_true]
        exact Or.inr ⟨(k2, cs), by simp [h], by simp [h]⟩
      · simp only [h, if_false]
        rcases assocFind_cases rest k with h2 | ⟨p, hp, he⟩
        · exact Or.inl (by simpa [h] using h2)
        · exact Or.inr ⟨p, by simp [hp], by simpa [h] using he⟩

/-! ## Favourites pass characterisation

favScan adds exactly the matching commands (in list order) to the menu and
sets their favourite flags; favPass composes this over the configuration
list, so the additions happen in configuration order and an entry without a
match changes nothing. -/

/-- Flag update one favourite entry performs on one command. -/
def flagUp (f : FavEntry) (c : AppCommand) : AppCommand :=
  if favMatches f c then { c with favourite := true } else c

theorem flagUp_name (f : FavEntry) (c : AppCommand) : (flagUp f c).name = c.name := by
  unfold flagUp; split <;> rfl

theorem favMatches_flagUp (f g : FavEntry) (c : AppCommand) :
    favMatches f (flagUp g c) = favMatches f c := by
  cases c
  unfold flagUp
  split <;> rfl

theorem favMatches_foldl_flagUp (f : FavEntry) :
    ∀ (fs : List FavEntry) (c : AppCommand),
    favMatches f (fs.foldl (fun c2 g => flagUp g c2) c) = favMatches f c
  | [], c => rfl
  | g :: gs, c => by
      simp only [List.foldl_cons]
      rw [favMatches_foldl_flagUp f gs (flagUp g c), favMatches_flagUp]

theorem favScan_eq (f : FavEntry) : ∀ (root : Node) (items : List AppCommand),
    favScan f root items =
      ((items.filter (fun c => favMatches f c)).foldl
          (fun r c => addCmdToMenu r c.name) root,
        items.map (flagUp f))
  | root, [] => by simp [favScan]
  | root, c :: rest => by
      rw [favScan]
      cases h : favMatches f c with
      | true =>
          simp only [h, if_true]
          rw [favScan_eq f (addCmdToMenu root c.name) rest]
          simp [List.filter_cons, h, flagUp]
      | false =>
          simp only [h, Bool.false_eq_true, if_false]
          rw [favScan_eq f root rest]
          simp [List.filter_cons, h, flagUp]

theorem favPass_eq : ∀ (favs : List FavEntry) (root : Node) (items : List AppCommand),
    favPass root items favs =
      (favs.foldl (fun r f => (items.filter (fun c => favMatches f c)).foldl
          (fun r2 c => addCmdToMenu r2 c.name) r) root,
        items.map (fun c => favs.foldl (fun c2 f => flagUp f c2) c))
  | [], root, items => by simp [favPass]
  | f :: fs, root, items => by
      rw [favPass, favScan_eq]
      rw [favPass_eq fs _ (items.map (flagUp f))]
      have hfilter : ∀ g : FavEntry,
          (items.map (flagUp f)).filter (fun c => favMatches g c) =
            (items.filter (fun c => favMatches g c)).map (flagUp f) := by
        intro g
        rw [List.filter_map]
        congr 1
        apply List.filter_congr
        intro c _
        simp [Function.comp, favMatches_flagUp]
      have hfold : ∀ (g : FavEntry) (r : Node),
          ((items.map (flagUp f)).filter (fun c => favMatches g c)).foldl
              (fun r2 c => addCmdToMenu r2 c.name) r =
            (items.filter (fun c => favMatches g c)).foldl
              (fun r2 c => addCmdToMenu r2 c.name) r := by
        intro g r
        rw [hfilter g, List.foldl_map]
        simp [flagUp_name]
      dsimp only
      simp only [Prod.mk.injEq]
      constructor
      · show List.foldl _ _ fs = List.foldl _ _ (f :: fs)
        rw [List.foldl_cons]
        have hstep : (fun (r : Node) (g : FavEntry) =>
            ((items.map (flagUp f)).filter (fun c => favMatches g c)).foldl
              (fun r2 c => addCmdToMenu r2 c.name) r) =
            (fun (r : Node) (g : FavEntry) =>
              (items.filter (fun c => favMatches g c)).foldl
                (fun r2 c => addCmdToMenu r2 c.name) r) := by
          funext r g
          exact hfold g r
        rw [hstep]
      · show List.map _ (List.map _ items) = List.map _ items
        rw [List.map_map]
        apply List.map_congr_left
        intro c _
        simp [Function.comp]

theorem favScan_no_match (f : FavEntry) (root : Node) (items : List AppCommand)
    (h : ∀ c ∈ items, favMatches f c = false) :
    favScan f root items = (root, items) := by
  rw [favScan_eq]
  have hfil : items.filter (fun c => favMatches f c) = [] := by
    simp only [List.filter_eq_nil_iff]
    intro c hc
    simp [h c hc]
  rw [hfil]
  have hmap : items.map (flagUp f) = items := by
    have : items.map (flagUp f) = items.map id := by
      apply List.map_congr_left
      intro c hc
      simp [flagUp, h c hc]
    rw [this, List.map_id]
  rw [hmap]
  rfl

theorem favPass_append : ∀ (xs ys : List FavEntry) (root : Node) (items : List AppCommand),
    favPass root items (xs ++ ys) =
      favPass (favPass root items xs).1 (favPass root items xs).2 ys
  | [], ys, root, items => by simp [favPass]
  | x :: xs, ys, root, items => by
      simp only [List.cons_append]
      rw [favPass, favPass, favPass_append xs ys]

/-! ## Concrete fixtures used by the claim theorems and witnesses -/

def fptrMenuTitle : String := "Flow Production Tracking"

def demoCtx : CtxInfo := { displayName := "Project Demo", hasFsLocations := false }

def emptyName : String := ""

def noAppProps : CmdProps := { app := none, cmdType := none }

def crashMsg : String := "boom"

def toggleArg : String := "toggled"

/-- A test environment over natural-number contexts. -/
def envW : EngineEnv Nat :=
  { sgtkFromPath := fun _ => true
    contextFromPath := fun _ _ => none
    changeContextOk := fun _ => true
    ctxInfo := fun _ => demoCtx
    commands := []
    favourites := []
    automaticContextSwitch := true }

def genMenuW : Node := Node.sub fptrMenuTitle NodeList.nil

def stW : EngineState Nat :=
  { context := 0, hasUi := true, menuGenerator := some genMenuW, graphConnected := true }

/-! ## Claim theorems -/

/-- C2: invoking the dispatcher-wrapped callback never raises synchronously
(its body only schedules the trapped execution and returns), any incidental
arguments the UI passes are accepted and discarded (the result does not
depend on them), and when the deferred task runs, an exception raised by the
underlying callback is caught at the dispatch boundary and only logged,
never propagated. -/
theorem c2_dispatch_containment (cb : CbOutcome) (args1 args2 : List String)
    (s : DispatchState) :
    callbackCall cb args1 s = Except.ok { s with pending := s.pending ++ [cb] } ∧
    callbackCall cb args1 s = callbackCall cb args2 s ∧
    (drainQueue { pending := [cb], logs := s.logs }).logs =
      executeWithinExceptionTrap cb s.logs ∧
    (∀ msg, cb = CbOutcome.raised msg →
      (drainQueue { pending := [cb], logs := s.logs }).logs =
        s.logs ++ [toolkitExceptionLog]) := by
  refine ⟨rfl, rfl, by simp [drainQueue], ?_⟩
  intro msg h
  subst h
  simp [drainQueue, executeWithinExceptionTrap]

/-- Witness for C2: a callback that raises, invoked with a stray UI argument,
is scheduled without any synchronous exception and the drained queue records
the error only in the log. -/
theorem c2_dispatch_containment_witness :
    callbackCall (CbOutcome.raised crashMsg) [toggleArg] { pending := [], logs := [] } =
      Except.ok { pending := [CbOutcome.raised crashMsg], logs := [] } ∧
    (drainQueue { pending := [CbOutcome.raised crashMsg], logs := [] }).logs =
      [toolkitExceptionLog] := by
  have h := c2_dispatch_containment (CbOutcome.raised crashMsg) [toggleArg] []
    { pending := [], logs := [] }
  exact ⟨by simpa using h.1, by simpa using h.2.2.2 crashMsg rfl⟩

/-- C3 counterexample: a descriptor whose name is empty does not make the
builder fail - create_menu runs to completion and silently renders an item
with an empty label at the root (there is no RegistrationError anywhere in
the source). -/
theorem c3_counterexample :
    (createMenu (Node.sub fptrMenuTitle NodeList.nil) demoCtx
        [(emptyName, noAppProps)] [] false).1 =
      Node.sub fptrMenuTitle (NodeList.ofList
        [contextMenuNode demoCtx, Node.divider, Node.divider,
         Node.item emptyName, Node.divider]) := by decide

/-- C3 amended: the builder performs no validation of descriptor names -
whatever the previous menu contents and context, a descriptor with an empty
name is accepted without any error and becomes a menu item with an empty
label at the root (full-identity collisions cannot even be presented to the
builder, since engine.commands is keyed by name). -/
theorem c3_amended (t : String) (acts : NodeList) (ctx : CtxInfo) :
    (createMenu (Node.sub t acts) ctx [(emptyName, noAppProps)] [] false).1 =
      Node.sub t (NodeList.ofList
        [contextMenuNode ctx, Node.divider, Node.divider,
         Node.item emptyName, Node.divider]) := rfl

/-- C9: destroy_engine evaluated in batch mode (no UI, so post_app_init
never created the menu generator) dereferences None and raises
AttributeError instead of being a safe no-op. -/
def batchState : EngineState Nat :=
  { context := 0, hasUi := false, menuGenerator := none, graphConnected := false }

theorem c9_destroy_engine_raises :
    destroyEngine batchState = Except.error noneDestroyError := rfl

/-- C10: create_shotgun_menu returns True exactly when the engine has a UI
and a menu generator exists; in that case the menu is rebuilt through
create_menu, and otherwise the call returns False and changes nothing. -/
theorem c10_create_shotgun_menu {Ctx : Type} (env : EngineEnv Ctx)
    (s : EngineState Ctx) (disabled : Bool) :
    ((createShotgunMenu env s disabled).2 = true ↔
      s.hasUi = true ∧ s.menuGenerator.isSome = true) ∧
    ((createShotgunMenu env s disabled).2 = false →
      createShotgunMenu env s disabled = (s, false)) ∧
    (∀ m, s.menuGenerator = some m → s.hasUi = true →
      createShotgunMenu env s disabled =
        ({ s with menuGenerator := some (createMenu m (env.ctxInfo s.context)
            env.commands env.favourites disabled).1 }, true)) := by
  cases hg : s.menuGenerator with
  | none => simp [createShotgunMenu, hg]
  | some m =>
      cases hui : s.hasUi with
      | false => simp [createShotgunMenu, hg, hui]
      | true => simp [createShotgunMenu, hg, hui]

/-- Witness for C10: with a UI and a generator present the call rebuilds the
menu and reports True. -/
theorem c10_create_shotgun_menu_witness :
    createShotgunMenu envW stW false =
      ({ stW with menuGenerator := some (createMenu genMenuW (envW.ctxInfo stW.context)
          envW.commands envW.favourites false).1 }, true) :=
  (c10_create_shotgun_menu envW stW false).2.2 genMenuW rfl rfl

/-- Inserting a favourite entry that matches no command anywhere in the
configuration list leaves the favourites pass unchanged. -/
theorem favPass_insert_no_match (root : Node) (items0 : List AppCommand)
    (favs1 favs2 : List FavEntry) (e : FavEntry)
    (h : ∀ c ∈ items0, favMatches e c = false) :
    favPass root items0 (favs1 ++ e :: favs2) = favPass root items0 (favs1 ++ favs2) := by
  rw [favPass_append, favPass_append]
  have h2 : ∀ c ∈ (favPass root items0 favs1).2, favMatches e c = false := by
    rw [favPass_eq]
    intro c hc
    simp only [List.mem_map] at hc
    obtain ⟨c0, hc0, rfl⟩ := hc
    rw [favMatches_foldl_flagUp]
    exact h c0 hc0
  rw [favPass]
  rw [favScan_no_match e _ _ h2]

/-- C7: the build is deterministic - whatever the previous contents of the
persistent menu (which create_menu clears first), a build from the same
commands and favourites produces the same tree, and building twice in a row
gives a tree structurally identical to building once. -/
theorem c7_build_deterministic (t : String) (a1 a2 : NodeList) (ctx : CtxInfo)
    (cmds : List (String × CmdProps)) (favs : List FavEntry) (disabled : Bool) :
    createMenu (Node.sub t a1) ctx cmds favs disabled =
      createMenu (Node.sub t a2) ctx cmds favs disabled ∧
    createMenu (createMenu (Node.sub t a1) ctx cmds favs disabled).1 ctx cmds favs disabled =
      createMenu (Node.sub t a1) ctx cmds favs disabled := by
  have key : ∀ b1 b2 : NodeList,
      createMenu (Node.sub t b1) ctx cmds favs disabled =
        createMenu (Node.sub t b2) ctx cmds favs disabled := fun b1 b2 => rfl
  refine ⟨key a1 a2, ?_⟩
  obtain ⟨ms, hms, _⟩ := createMenu_shape (Node.sub t a1) ctx cmds favs disabled
  rw [hms]
  exact key ms a1

/-- C6: the favourites pass processes the configuration in order - the menu
grows by exactly the matching commands of each entry, taken in configuration
order, and the favourite flags are set exactly on the matched commands; an
entry matching no command changes nothing and leaves no trace in the built
tree. -/
theorem c6_favourites_pass (prev : Node) (ctx : CtxInfo)
    (cmds : List (String × CmdProps)) (d : Bool)
    (favs1 favs2 : List FavEntry) (e : FavEntry)
    (he : ∀ p ∈ cmds, favMatches e (AppCommand.mk p.1 p.2 false) = false)
    (root : Node) (items : List AppCommand) (favs : List FavEntry) :
    createMenu prev ctx cmds (favs1 ++ e :: favs2) d =
      createMenu prev ctx cmds (favs1 ++ favs2) d ∧
    (favPass root items favs).1 =
      favs.foldl (fun r f => (items.filter (fun c => favMatches f c)).foldl
        (fun r2 c => addCmdToMenu r2 c.name) r) root ∧
    (favPass root items favs).2 =
      items.map (fun c => favs.foldl (fun c2 f => flagUp f c2) c) := by
  refine ⟨?_, by rw [favPass_eq], by rw [favPass_eq]⟩
  have hitems : ∀ c ∈ (cmds.map (fun p => AppCommand.mk p.1 p.2 false)).insertionSort cmdNameLe,
      favMatches e c = false := by
    intro c hc
    rw [List.mem_insertionSort] at hc
    simp only [List.mem_map] at hc
    obtain ⟨p, hp, rfl⟩ := hc
    exact he p hp
  cases d with
  | true => rfl
  | false =>
      simp only [createMenu, Bool.false_eq_true, if_false]
      rw [favPass_insert_no_match _ _ favs1 favs2 e hitems]

/-- C4: _add_app_menu emits the app groups in alphabetical key order; a
group of more than one command becomes a sub-menu holding all of its
commands sorted by name (favourite or not), a single non-favourite command
is inlined at the root, and a single favourite command is suppressed; for
slash-free command names this is exactly the spec-side description
specAppMenuItems, followed by the closing divider. -/
theorem c4_add_app_menu (t : String) (ns : NodeList)
    (byApp : List (String × List AppCommand))
    (hsf : ∀ p ∈ byApp, ∀ c ∈ p.2, slashFree c.name = true) :
    addAppMenu (Node.sub t ns) byApp =
      Node.sub t (ns.append (NodeList.ofList (specAppMenuItems byApp ++ [Node.divider]))) ∧
    List.Sorted strLeP ((byApp.map Prod.fst).insertionSort strLeP) := by
  refine ⟨?_, List.sorted_insertionSort strLeP _⟩
  rw [addAppMenu]
  have hkeys : ∀ k ∈ (byApp.map Prod.fst).insertionSort strLeP,
      ∀ c ∈ assocFind byApp k, slashFree c.name = true := by
    intro k _ c hc
    rcases assocFind_cases byApp k with h0 | ⟨p, hp, he⟩
    · rw [h0] at hc; cases hc
    · rw [he] at hc; exact hsf p hp c hc
  rw [foldl_emitApp_spec byApp _ t ns hkeys]
  show Node.sub t ((ns.append (NodeList.ofList _)).append (.cons Node.divider .nil)) = _
  rw [specAppMenuItems, nodeListAppend_assoc, nodeListOfList_append]
  simp [NodeList.ofList]

def settingsName : String := "Settings"

def ghostFav : FavEntry := { appInstance := "pipeline", favName := "Ghost" }

/-- Witness for C6: a favourites entry naming a command that was never
registered is ignored - the built tree is identical with and without it. -/
theorem c6_favourites_pass_witness :
    createMenu genMenuW demoCtx [(settingsName, noAppProps)] [ghostFav] false =
      createMenu genMenuW demoCtx [(settingsName, noAppProps)] [] false :=
  (c6_favourites_pass genMenuW demoCtx [(settingsName, noAppProps)] false
    [] [] ghostFav (by decide) genMenuW [] []).1

def pipeInstanceLabel : String := "pipeline"

def pipeHandle : AppHandle := { displayName := "Pipeline", instanceName := some pipeInstanceLabel }

def pipeProps : CmdProps := { app := some pipeHandle, cmdType := none }

def cmdAW : AppCommand := { name := "LoaderTool", props := pipeProps, favourite := false }

def cmdBW : AppCommand := { name := "PublishTool", props := pipeProps, favourite := false }

def cmdSW : AppCommand := { name := "Settings", props := noAppProps, favourite := false }

def byAppW : List (String × List AppCommand) :=
  [(pipeHandle.displayName, [cmdBW, cmdAW]), (otherItemsLabel, [cmdSW])]

/-- Witness for C4: a two-command app becomes a sub-menu with its commands
in name order, a single-command app is inlined, and the groups come out in
alphabetical order of app name. -/
theorem c4_add_app_menu_witness :
    addAppMenu (Node.sub fptrMenuTitle NodeList.nil) byAppW =
      Node.sub fptrMenuTitle (NodeList.nil.append
        (NodeList.ofList (specAppMenuItems byAppW ++ [Node.divider]))) :=
  (c4_add_app_menu fptrMenuTitle NodeList.nil byAppW (by decide)).1

/-- C1: update_engine_context follows the five-step resolution policy in
order: an absent or empty document path gives NoChange with nothing else
happening; failure to derive a toolkit handle from the path gives Failed
with an error log and the state untouched; failure to derive a fine-grained
context (with the current context as hint) gives Ambiguous with a warning
log and the state untouched; a derived context equal to the current one
gives NoChange; otherwise the outcome is Resolved and a context switch is
attempted. -/
theorem c1_resolution_policy {Ctx : Type} [DecidableEq Ctx] (env : EngineEnv Ctx)
    (path : Option String) (s : EngineState Ctx) (hui : s.hasUi = true) :
    (path.getD emptyString = emptyString →
      updateEngineContext env path s =
        (s, .noChange, [(LogLevel.debug, LogMsg.updatingContext),
          (LogLevel.info, LogMsg.noScenePath)])) ∧
    (path.getD emptyString ≠ emptyString → env.sgtkFromPath (path.getD emptyString) = false →
      updateEngineContext env path s =
        (s, .failed, [(LogLevel.debug, LogMsg.updatingContext),
          (LogLevel.error, LogMsg.couldNotDetectContext)])) ∧
    (path.getD emptyString ≠ emptyString → env.sgtkFromPath (path.getD emptyString) = true →
      env.contextFromPath (path.getD emptyString) s.context = none →
      updateEngineContext env path s =
        (s, .ambiguous, [(LogLevel.debug, LogMsg.updatingContext),
          (LogLevel.warning, LogMsg.couldNotExtractContext)])) ∧
    (∀ c, path.getD emptyString ≠ emptyString → env.sgtkFromPath (path.getD emptyString) = true →
      env.contextFromPath (path.getD emptyString) s.context = some c → c = s.context →
      updateEngineContext env path s =
        (s, .noChange, [(LogLevel.debug, LogMsg.updatingContext)])) ∧
    (∀ c, path.getD emptyString ≠ emptyString → env.sgtkFromPath (path.getD emptyString) = true →
      env.contextFromPath (path.getD emptyString) s.context = some c → c ≠ s.context →
      (updateEngineContext env path s).2.1 = .resolved ∧
      updateEngineContext env path s =
        (if env.changeContextOk c then
          (postContextChange env s.context { s with context := c }, .resolved,
            [(LogLevel.debug, LogMsg.updatingContext),
             (LogLevel.info, LogMsg.contextChanged)])
         else
          ((createShotgunMenu env s true).1, .resolved,
            [(LogLevel.debug, LogMsg.updatingContext),
             (LogLevel.error, LogMsg.couldNotChangeContext)]))) := by
  refine ⟨?_, ?_, ?_, ?_, ?_⟩
  · intro h1
    simp [updateEngineContext, hui, h1]
  · intro h1 h2
    simp [updateEngineContext, hui, h1, h2]
  · intro h1 h2 h3
    simp [updateEngineContext, hui, h1, h2, h3]
  · intro c h1 h2 h3 h4
    simp [updateEngineContext, hui, h1, h2, h3, h4]
  · intro c h1 h2 h3 h4
    by_cases h5 : env.changeContextOk c = true
    · constructor <;> simp [updateEngineContext, hui, h1, h2, h3, h4, h5]
    · have h5' : env.changeContextOk c = false := by
        cases hb : env.changeContextOk c
        · rfl
        · exact absurd hb h5
      constructor <;> simp [updateEngineContext, hui, h1, h2, h3, h4, h5']

/-- Witness for C1: an absent document path resolves to NoChange and leaves
the engine untouched. -/
theorem c1_resolution_policy_witness :
    updateEngineContext envW none stW =
      (stW, ResolutionOutcome.noChange,
        [(LogLevel.debug, LogMsg.updatingContext),
         (LogLevel.info, LogMsg.noScenePath)]) :=
  (c1_resolution_policy envW none stW rfl).1 rfl

/-- An enabled rebuild is never the disabled menu: it always carries at
least the context sub-menu and a divider at the root. -/
theorem isDisabledMenu_createMenu_false (prev : Node) (ctx : CtxInfo)
    (cmds : List (String × CmdProps)) (favs : List FavEntry) :
    isDisabledMenu (createMenu prev ctx cmds favs false).1 = false := by
  obtain ⟨ms, hms, hlen⟩ := createMenu_shape prev ctx cmds favs false
  rw [hms]
  apply isDisabledMenu_false_of_two_le
  simpa [Node.actionsLength, Node.actionsD] using hlen rfl

/-- C8: when the external context switch is rejected, the engine keeps the
current context, logs an error, rebuilds the menu in the disabled state with
the single explanatory entry, and raises nothing (the step function is
total); and from a disabled menu, the only transition that yields an enabled
menu again is a Resolved outcome whose switch is accepted (with automatic
context switching on, its default). -/
theorem c8_switch_failure_disabled {Ctx : Type} [DecidableEq Ctx]
    (env : EngineEnv Ctx) (path : Option String) (s : EngineState Ctx) (m : Node)
    (hui : s.hasUi = true) (hgen : s.menuGenerator = some m) :
    (∀ c, path.getD emptyString ≠ emptyString → env.sgtkFromPath (path.getD emptyString) = true →
      env.contextFromPath (path.getD emptyString) s.context = some c → c ≠ s.context →
      env.changeContextOk c = false →
      (updateEngineContext env path s).1.context = s.context ∧
      (updateEngineContext env path s).1.menuGenerator =
        some (Node.sub m.titleD
          (NodeList.cons (Node.sub sgtkDisabledLabel NodeList.nil) NodeList.nil)) ∧
      (LogLevel.error, LogMsg.couldNotChangeContext) ∈ (updateEngineContext env path s).2.2) ∧
    (isDisabledMenu m = true →
      ((∃ m2, (updateEngineContext env path s).1.menuGenerator = some m2 ∧
          isDisabledMenu m2 = false) ↔
        ((updateEngineContext env path s).2.1 = ResolutionOutcome.resolved ∧
          env.automaticContextSwitch = true ∧
          ∃ c, env.contextFromPath (path.getD emptyString) s.context = some c ∧
            c ≠ s.context ∧ env.changeContextOk c = true))) := by
  constructor
  · intro c h1 h2 h3 h4 h5
    have hstep : updateEngineContext env path s =
        ((createShotgunMenu env s true).1, .resolved,
          [(LogLevel.debug, LogMsg.updatingContext),
           (LogLevel.error, LogMsg.couldNotChangeContext)]) := by
      simp [updateEngineContext, hui, h1, h2, h3, h4, h5]
    have hcsm : (createShotgunMenu env s true).1 =
        { s with menuGenerator := some (Node.sub m.titleD
            (NodeList.cons (Node.sub sgtkDisabledLabel NodeList.nil) NodeList.nil)) } := by
      simp [createShotgunMenu, hgen, hui, createMenu, clearMenu, appendAction,
        NodeList.append]
    rw [hstep, hcsm]
    exact ⟨rfl, rfl, by simp⟩
  · intro hdis
    by_cases h1 : path.getD emptyString = emptyString
    · simp [updateEngineContext, hui, h1, hgen, hdis]
    · by_cases h2 : env.sgtkFromPath (path.getD emptyString) = true
      · cases h3 : env.contextFromPath (path.getD emptyString) s.context with
        | none => simp [updateEngineContext, hui, h1, h2, h3, hgen, hdis]
        | some c =>
            by_cases h4 : c = s.context
            · simp [updateEngineContext, hui, h1, h2, h3, h4, hgen, hdis]
            · cases h5 : env.changeContextOk c with
              | false =>
                  simp [updateEngineContext, hui, h1, h2, h3, h4, h5,
                    createShotgunMenu, hgen, createMenu, clearMenu, appendAction,
                    NodeList.append, isDisabledMenu, hdis]
              | true =>
                  have h4' : ¬ s.context = c := fun hh => h4 hh.symm
                  cases hauto : env.automaticContextSwitch with
                  | false =>
                      simp [updateEngineContext, hui, h1, h2, h3, h4, h5,
                        postContextChange, hauto, hgen, hdis]
                  | true =>
                      have hnd := isDisabledMenu_createMenu_false m (env.ctxInfo c)
                        env.commands env.favourites
                      simp [updateEngineContext, hui, h1, h2, h3, h4, h5,
                        postContextChange, hauto, h4', createShotgunMenu, hgen,
                        hdis, hnd]
      · have h2' : env.sgtkFromPath (path.getD emptyString) = false := by
          cases hb : env.sgtkFromPath (path.getD emptyString)
          · rfl
          · exact absurd hb h2
        simp [updateEngineContext, hui, h1, h2', hgen, hdis]

def env8 : EngineEnv Nat :=
  { sgtkFromPath := fun _ => true
    contextFromPath := fun _ _ => some 1
    changeContextOk := fun _ => false
    ctxInfo := fun _ => demoCtx
    commands := []
    favourites := []
    automaticContextSwitch := true }

def scenePathW : String := "/scenes/shot.mg"

/-- Witness for C8: a rejected switch leaves the context at its old value
and swaps the generator menu for the disabled menu with its explanatory
entry. -/
theorem c8_switch_failure_disabled_witness :
    (updateEngineContext env8 (some scenePathW) stW).1.context = stW.context ∧
    (updateEngineContext env8 (some scenePathW) stW).1.menuGenerator =
      some (Node.sub genMenuW.titleD
        (NodeList.cons (Node.sub sgtkDisabledLabel NodeList.nil) NodeList.nil)) := by
  have h := (c8_switch_failure_disabled env8 (some scenePathW) stW genMenuW rfl rfl).1
    1 (by decide) rfl rfl (by decide) rfl
  exact ⟨h.1, h.2.1⟩

def myAppLabel : String := "MyApp"

def nameABX : String := "A/B/X"

def nameBY : String := "B/Y"

def labelA : String := "A"

def labelB : String := "B"

def labelX : String := "X"

def labelY : String := "Y"

def appsLabel : String := "Apps"

def loaderName : String := "Apps/Loader"

def publisherName : String := "Apps/Publisher"

def loaderLabel : String := "Loader"

def publisherLabel : String := "Publisher"

/-- C5 counterexample: the sub-menu search of _find_sub_menu_item is
recursive over the whole subtree, not restricted to the level being walked.
In a menu already holding the group A with nested group B (built from the
descriptor A/B/X), placing B/Y does not create or reuse a B group at the
walked level: the leaf Y ends up inside the nested group A/B, and the root
still has the single action A with no B group at its own level. -/
theorem c5_counterexample :
    addCmdToMenu (addCmdToMenu (Node.sub myAppLabel NodeList.nil) nameABX) nameBY =
      Node.sub myAppLabel (NodeList.ofList
        [Node.sub labelA (NodeList.ofList
          [Node.sub labelB (NodeList.ofList [Node.item labelX, Node.item labelY])])]) ∧
    (addCmdToMenu (addCmdToMenu (Node.sub myAppLabel NodeList.nil) nameABX) nameBY).actionsLength = 1 ∧
    getAt [0, 0, 1]
      (addCmdToMenu (addCmdToMenu (Node.sub myAppLabel NodeList.nil) nameABX) nameBY) =
      some (Node.item labelY) := by decide

/-- C5 amended: the search for an existing group is recursive over the whole
subtree handed to add_command_to_menu (the parent itself first, then its
descendants depth-first), and the first match at any depth is reused; in a
parent menu that is not itself titled Apps and contains no Apps-titled node
anywhere, adding Apps/Loader and then Apps/Publisher yields exactly one new
Apps group, appended at the end, holding the leaves Loader then Publisher -
never two separate Apps groups. -/
theorem c5_amended (t : String) (acts : NodeList)
    (ht : ¬ t = appsLabel)
    (hnone : NodeList.hasTitled appsLabel acts = false) :
    addCmdToMenu (addCmdToMenu (Node.sub t acts) loaderName) publisherName =
      Node.sub t (acts.append (NodeList.ofList
        [Node.sub appsLabel (NodeList.ofList
          [Node.item loaderLabel, Node.item publisherLabel])])) := by
  have hfind1 : Node.findSubMenuItem appsLabel (Node.sub t acts) = none := by
    rw [Node.findSubMenuItem]
    simp only [ht, if_false]
    exact (findAct_eq_none appsLabel acts 0).mpr hnone
  have hstep1 : addCmdToMenu (Node.sub t acts) loaderName =
      Node.sub t (acts.append (NodeList.cons
        (Node.sub appsLabel (NodeList.cons (Node.item loaderLabel) NodeList.nil))
        NodeList.nil)) := by
    show placeIn [appsLabel] (Node.item loaderLabel) (Node.sub t acts) = _
    rw [placeIn, hfind1]
    rfl
  have hfind2 : Node.findSubMenuItem appsLabel
      (Node.sub t (acts.append (NodeList.cons
        (Node.sub appsLabel (NodeList.cons (Node.item loaderLabel) NodeList.nil))
        NodeList.nil))) = some [acts.length] := by
    rw [Node.findSubMenuItem]
    simp only [ht, if_false]
    have h := findAct_append_last appsLabel
      (NodeList.cons (Node.item loaderLabel) NodeList.nil) acts 0 hnone
    simpa using h
  rw [hstep1]
  show placeIn [appsLabel] (Node.item publisherLabel)
    (Node.sub t (acts.append (NodeList.cons
      (Node.sub appsLabel (NodeList.cons (Node.item loaderLabel) NodeList.nil))
      NodeList.nil))) = _
  rw [placeIn, hfind2]
  show Node.sub t ((acts.append (NodeList.cons
      (Node.sub appsLabel (NodeList.cons (Node.item loaderLabel) NodeList.nil))
      NodeList.nil)).modifyIdx
        (fun m => modifyAt (fun m2 => placeIn [] (Node.item publisherLabel) m2) [] m)
        acts.length) = _
  rw [modifyIdx_append_length]
  rfl

/-- Witness for C5 amended: on a fresh parent menu the two descriptors
produce the single Apps group with Loader before Publisher. -/
theorem c5_amended_witness :
    addCmdToMenu (addCmdToMenu (Node.sub myAppLabel NodeList.nil) loaderName) publisherName =
      Node.sub myAppLabel (NodeList.nil.append (NodeList.ofList
        [Node.sub appsLabel (NodeList.ofList
          [Node.item loaderLabel, Node.item publisherLabel])])) :=
  c5_amended myAppLabel NodeList.nil (by decide) rfl
